import Mathlib

/-!
Verification of the yuno_os installer core: a shallow embedding of the
partition layout planner, the mount orchestrator, the chroot session
manager and the installation step pipeline, with proofs of the stated
invariants.

Strings are modelled as Lean `String`s; the Go code only ever slices and
compares ASCII device paths and mount points, so Go byte indexing and Lean
char indexing coincide on every value that occurs. External effects
(the mount table, directory creation, command success) are modelled as
explicit environments of Boolean oracles, and functions that issue external
calls additionally return the sequence of calls they made.
-/

namespace YunoOS

/-! ### Decimal rendering and parsing helpers -/

/-- Character for one decimal digit, as produced by Go's `fmt.Sprintf("%d", _)`. -/
def digitChar : Nat → Char
  | 0 => '0'
  | 1 => '1'
  | 2 => '2'
  | 3 => '3'
  | 4 => '4'
  | 5 => '5'
  | 6 => '6'
  | 7 => '7'
  | 8 => '8'
  | 9 => '9'
  | _ => '*'

/-- Decimal rendering of a natural number (Go `fmt.Sprintf("%d", n)` for a
non-negative value), written with explicit fuel so that it is structurally
recursive; any `fuel > n` is enough fuel. -/
def natReprCore : Nat → Nat → List Char → List Char
  | 0, _, acc => acc
  | fuel + 1, n, acc =>
    if n < 10 then digitChar n :: acc
    else natReprCore fuel (n / 10) (digitChar (n % 10) :: acc)

/-- Go `fmt.Sprintf("%d", n)` for a natural number. -/
def natRepr (n : Nat) : String := String.mk (natReprCore (n + 1) n [])

/-- Go `fmt.Sprintf("%d", i)` for a (possibly negative) integer. -/
def intRepr (i : Int) : String :=
  if i < 0 then "-" ++ natRepr i.natAbs else natRepr i.toNat

/-- Value of an all-digit decimal string, folded left to right from an initial
accumulator (Go `strconv.Atoi`; overflow cannot occur at the magnitudes the
planner ever builds). -/
def parseDigitsAcc (a : Nat) (l : List Char) : Nat :=
  l.foldl (fun a c => a * 10 + (c.toNat - 48)) a

/-- Leftmost-longest match of the regular expression `(\d+)` (Go
`regexp.MustCompile` plus `FindString` in `parseStartMiB`): skip to the first
digit, then take the maximal digit run; empty when the string has no digit. -/
def firstDigitRun : List Char → List Char
  | [] => []
  | c :: cs => if c.isDigit then c :: cs.takeWhile Char.isDigit else firstDigitRun cs

/-- Embeds `parseStartMiB` (src/unnamed/part_006): parse a string such as
`"1234MiB"` to the integer 1234, returning 0 when no digits occur. -/
def parseStartMiB (s : String) : Nat :=
  match firstDigitRun s.data with
  | [] => 0
  | l => parseDigitsAcc 0 l

/-! ### Configuration constants (pkg/config): Go string-typed enums -/

namespace Config

def PartSchemeGPT : String := "gpt"

def PartSchemeMBR : String := "mbr"

def FSExt4 : String := "ext4"

def FSBtrfs : String := "btrfs"

def FSXfs : String := "xfs"

def FSF2fs : String := "f2fs"

def FSZfs : String := "zfs"

def FSFat32 : String := "fat32"

def FSSwap : String := "swap"

def FSNone : String := "none"

end Config

/-! ### Partition layout planner (src/unnamed/part_006) -/

/-- Embeds `LayoutPartition` (src/unnamed/part_006): a partition in a planned
layout. Field defaults mirror Go zero values for fields omitted in literals. -/
structure LayoutPartition where
  Number : Nat := 0
  Start : String := ""
  End : String := ""
  Size : String := ""
  Filesystem : String := ""
  MountPoint : String := ""
  Label : String := ""
  Flags : List String := []
  Encrypt : Bool := false
deriving DecidableEq

/-- Embeds `PartitionLayout` (src/unnamed/part_006). -/
structure PartitionLayout where
  Scheme : String
  Partitions : List LayoutPartition
deriving DecidableEq

/-- The ESP entry appended by `CreateAutoLayout` when `isUEFI` holds. -/
def espPartition : LayoutPartition :=
  { Number := 1, Start := "1MiB", End := "1025MiB", Size := "1024MiB",
    Filesystem := Config.FSFat32, MountPoint := "/boot", Label := "ESP",
    Flags := ["boot", "esp"] }

/-- The BIOS boot stub appended by `CreateAutoLayout` on legacy BIOS. -/
def biosStubPartition : LayoutPartition :=
  { Number := 1, Start := "1MiB", End := "3MiB", Size := "2MiB",
    Filesystem := Config.FSNone, Label := "BIOS", Flags := ["bios_grub"] }

/-- The separate ext4 `/boot` entry appended by `CreateAutoLayout` on legacy BIOS. -/
def mbrBootPartition : LayoutPartition :=
  { Number := 2, Start := "3MiB", End := "515MiB", Size := "512MiB",
    Filesystem := Config.FSExt4, MountPoint := "/boot", Label := "boot",
    Flags := ["boot"] }

/-- Embeds the swap-size computation of `CreateAutoLayout`
(src/unnamed/part_006 lines 389-396): the reported memory in MiB capped above
at 8192 and below at 1024. -/
def clampSwapMB (memMB : Nat) : Nat :=
  let swapMB := memMB
  let swapMB := if swapMB > 8192 then 8192 else swapMB
  let swapMB := if swapMB < 1024 then 1024 else swapMB
  swapMB

/-- Embeds `CreateAutoLayout` (src/unnamed/part_006 lines 328-423). The disk
size in bytes (read by `GetDisk`) and the reported memory in MiB (read by
`utils.GetMemoryMB`) are broken out as parameters; the body follows the
source's append sequence: boot partition(s), then swap, then root up to the
`"100%"` sentinel. -/
def CreateAutoLayout (diskSize : Int) (memMB : Nat) (isUEFI useEncryption : Bool) :
    PartitionLayout :=
  let scheme := if isUEFI then Config.PartSchemeGPT else Config.PartSchemeMBR
  let bootParts : List LayoutPartition :=
    if isUEFI then [espPartition] else [biosStubPartition, mbrBootPartition]
  let partNum : Nat := if isUEFI then 2 else 3
  let currentPos : String := if isUEFI then "1025MiB" else "515MiB"
  let swapMB := clampSwapMB memMB
  let swapEnd := natRepr (parseStartMiB currentPos + swapMB) ++ "MiB"
  let swapPart : LayoutPartition :=
    { Number := partNum, Start := currentPos, End := swapEnd,
      Size := natRepr swapMB ++ "MiB", Filesystem := Config.FSSwap,
      Label := "swap" }
  let rootPart : LayoutPartition :=
    { Number := partNum + 1, Start := swapEnd, End := "100%",
      Size := intRepr ((diskSize.tdiv 1024).tdiv 1024 - (parseStartMiB swapEnd : Int)) ++ "MiB",
      Filesystem := Config.FSExt4, MountPoint := "/", Label := "root",
      Encrypt := useEncryption }
  { Scheme := scheme, Partitions := bootParts ++ [swapPart, rootPart] }

/-- Embeds the scheme-to-parted-label mapping of `CreatePartitionTable`
(src/unnamed/part_006 lines 185-204): GPT to `"gpt"`, MBR to `"msdos"`,
anything else is rejected before any command runs. -/
def CreatePartitionTableLabel (scheme : String) : Except String String :=
  if scheme = Config.PartSchemeGPT then Except.ok "gpt"
  else if scheme = Config.PartSchemeMBR then Except.ok "msdos"
  else Except.error ("unsupported partition scheme: " ++ scheme)

/-! ### Partition device naming (src/unnamed/part_006 and part_002) -/

/-- Does `sub` begin the list `s`? Used to model Go `strings.Contains`. -/
def strStarts : List Char → List Char → Bool
  | [], _ => true
  | _ :: _, [] => false
  | c :: cs, d :: ds => c == d && strStarts cs ds

/-- Model of Go `strings.Contains` on the character level: scan every
suffix of the haystack for the needle at its head. -/
def strFind (sub : List Char) : List Char → Bool
  | [] => strStarts sub []
  | c :: rest => strStarts sub (c :: rest) || strFind sub rest

/-- Go `strings.Contains s sub`. -/
def stringsContains (s sub : String) : Bool := strFind sub.data s.data

/-- The substring relation the device naming rule is stated with:
`sub` occurs contiguously inside `s`. -/
def SubstrOf (sub s : List Char) : Prop := ∃ l r, s = l ++ sub ++ r

namespace Partition

/-- Embeds `getPartitionDevice` of the partition package
(src/unnamed/part_006 lines 605-611), which uses `strings.Contains`. -/
def getPartitionDevice (disk : String) (partNum : Nat) : String :=
  if stringsContains disk "nvme" || stringsContains disk "mmcblk" then
    disk ++ "p" ++ natRepr partNum
  else disk ++ natRepr partNum

end Partition

namespace Installer

/-- Embeds one needle of `containsAny` (src/unnamed/part_002 lines 623-634):
the hand-rolled index loop comparing `s[i : i+len(sub)]` against `sub` for
every admissible `i`. -/
def containsAnyOne (s sub : List Char) : Bool :=
  if sub.length ≤ s.length then
    (List.range (s.length - sub.length + 1)).any fun i => (s.drop i).take sub.length == sub
  else false

/-- Embeds `containsAny` (src/unnamed/part_002): any of the needles occurs. -/
def containsAny (s : List Char) (subs : List (List Char)) : Bool :=
  subs.any (containsAnyOne s)

/-- Embeds `getPartitionDevice` of the installer package
(src/unnamed/part_002 lines 616-621), which uses the hand-rolled
`containsAny` instead of `strings.Contains`. -/
def getPartitionDevice (disk : String) (partNum : Nat) : String :=
  if containsAny disk.data ["nvme".data, "mmcblk".data] then
    disk ++ "p" ++ natRepr partNum
  else disk ++ natRepr partNum

end Installer

/-! ### Mount orchestrator (src/unnamed/part_006, `MountPartitions`) -/

/-- Embeds the local `mountInfo` record of `MountPartitions`. -/
structure MountInfoRec where
  device : String
  mountPoint : String
  fstype : String
deriving DecidableEq

/-- One pass of the inner loop of the sort in `MountPartitions`
(src/unnamed/part_006 lines 500-506): the pivot at position `i` is swapped
with any later element whose mount point is shorter; the function returns the
final pivot together with the rewritten tail. -/
def innerPass (x : MountInfoRec) : List MountInfoRec → MountInfoRec × List MountInfoRec
  | [] => (x, [])
  | y :: ys =>
    if y.mountPoint.length < x.mountPoint.length then
      let p := innerPass y ys
      (p.1, x :: p.2)
    else
      let p := innerPass x ys
      (p.1, y :: p.2)

/-- The outer loop of the sort in `MountPartitions`, one inner pass per
position; `fuel` bounds the number of positions and `fuel = length` always
suffices, making the function structurally recursive. -/
def sortMountsCore : Nat → List MountInfoRec → List MountInfoRec
  | 0, l => l
  | _ + 1, [] => []
  | fuel + 1, x :: xs =>
    let p := innerPass x xs
    p.1 :: sortMountsCore fuel p.2

/-- The selection sort by ascending mount-point length used by
`MountPartitions` (src/unnamed/part_006 lines 499-506). -/
def sortMounts (l : List MountInfoRec) : List MountInfoRec := sortMountsCore l.length l

/-- Embeds the mount-call ordering of `MountPartitions`
(src/unnamed/part_006 lines 475-523): collect every layout partition with a
non-empty mount point, resolve its device name, and sort by ascending
mount-point length. The subsequent loop mounts exactly this list in order,
so this is the recorded mount call order. -/
def mountOrder (device : String) (layout : PartitionLayout) : List MountInfoRec :=
  sortMounts ((layout.Partitions.filter (fun p => !(p.MountPoint == ""))).map
    (fun p => { device := Partition.getPartitionDevice device p.Number,
                mountPoint := p.MountPoint, fstype := p.Filesystem }))

/-! ### Chroot session manager (src/unnamed/part_007) -/

/-- Embeds `MountPoint` (src/unnamed/part_007); defaults mirror Go zero values. -/
structure MountPoint where
  Source : String := ""
  Target : String := ""
  FSType : String := ""
  Flags : String := ""
  Bind : Bool := false
deriving DecidableEq

/-- Go `filepath.Join` restricted to the clean relative components used by
`DefaultMounts`. -/
def filepathJoin (a b : String) : String := a ++ "/" ++ b

/-- Embeds `DefaultMounts` (src/unnamed/part_007 lines 39-50). -/
def DefaultMounts (targetDir : String) : List MountPoint :=
  [{ Source := "proc", Target := filepathJoin targetDir "proc", FSType := "proc" },
   { Source := "sysfs", Target := filepathJoin targetDir "sys", FSType := "sysfs" },
   { Source := "devtmpfs", Target := filepathJoin targetDir "dev", FSType := "devtmpfs" },
   { Source := "devpts", Target := filepathJoin targetDir "dev/pts", FSType := "devpts",
     Flags := "gid=5,mode=620" },
   { Source := "tmpfs", Target := filepathJoin targetDir "dev/shm", FSType := "tmpfs",
     Flags := "nosuid,nodev" },
   { Source := "/run", Target := filepathJoin targetDir "run", Bind := true },
   { Source := "tmpfs", Target := filepathJoin targetDir "tmp", FSType := "tmpfs" },
   { Source := "efivarfs", Target := filepathJoin targetDir "sys/firmware/efi/efivars",
     FSType := "efivarfs" }]

/-- Environment oracle for `Setup`: host firmware mode, and the outcomes of
`utils.CreateDir` and of the mount system call per target path. -/
structure SetupEnv where
  isUEFI : Bool
  createDirOk : String → Bool
  mountOk : String → Bool

/-- Outcome of `Setup`: the mount table afterwards, the session's
tracked-mounts list, the mount calls issued (in order), and the error. -/
structure SetupResult where
  world : List String
  tracked : List String
  calls : List String
  err : Option String
deriving DecidableEq

/-- Embeds the loop body of `Setup` (src/unnamed/part_007 lines 58-92).
`w` is the set of currently mounted targets (`utils.IsMounted`), `tr` the
session's `m.mounted` list, `cl` the mount calls issued so far. Branches in
source order: skip `efivarfs` when not UEFI; abort when `CreateDir` fails;
skip a target that is already a mountpoint; mount, treating an `efivarfs`
mount failure as non-fatal and any other failure as an abort; every
successful mount is appended to the tracked list. -/
def setupLoop (env : SetupEnv) :
    List MountPoint → List String → List String → List String → SetupResult
  | [], w, tr, cl => ⟨w, tr, cl, none⟩
  | mp :: rest, w, tr, cl =>
    if mp.FSType == "efivarfs" && !env.isUEFI then
      setupLoop env rest w tr cl
    else if !env.createDirOk mp.Target then
      ⟨w, tr, cl, some ("failed to create " ++ mp.Target)⟩
    else if w.contains mp.Target then
      setupLoop env rest w tr cl
    else if env.mountOk mp.Target then
      setupLoop env rest (mp.Target :: w) (tr ++ [mp.Target]) (cl ++ [mp.Target])
    else if mp.FSType == "efivarfs" then
      setupLoop env rest w tr (cl ++ [mp.Target])
    else
      ⟨w, tr, cl ++ [mp.Target], some ("failed to mount " ++ mp.Target)⟩

/-- Embeds `Setup` (src/unnamed/part_007 lines 53-100) for a session on
`targetDir` whose tracked list currently is `tracked`, in a world where the
targets in `world` are mounted. The trailing `copyResolv` only logs on
failure and does not touch the tracked list. -/
def Setup (env : SetupEnv) (targetDir : String) (world tracked : List String) : SetupResult :=
  setupLoop env (DefaultMounts targetDir) world tracked []

/-- Embeds the `chroot.Manager` state. -/
structure ChrootManager where
  targetDir : String
  mounted : List String
deriving DecidableEq

/-- Environment oracle for `Teardown`: `utils.IsMounted` and the outcome of
`utils.Unmount` per target path. -/
structure TeardownEnv where
  isMounted : String → Bool
  unmountOk : String → Bool

/-- Outcome of `Teardown`: the manager afterwards, the unmount attempts in
order (target plus whether the unmount succeeded), and the returned error. -/
structure TeardownResult where
  manager : ChrootManager
  attempts : List (String × Bool)
  err : Option String

/-- Embeds the loop body of `Teardown` (src/unnamed/part_007 lines 138-145),
applied to the tracked list already reversed: each entry still mounted gets
one unmount attempt; a failed attempt is only logged and iteration
continues. -/
def teardownLoop (env : TeardownEnv) : List String → List (String × Bool)
  | [] => []
  | mnt :: rest =>
    if env.isMounted mnt then (mnt, env.unmountOk mnt) :: teardownLoop env rest
    else teardownLoop env rest

/-- Embeds `Teardown` (src/unnamed/part_007 lines 134-149): iterate the
tracked list from its last entry to its first, then clear it and return nil. -/
def Teardown (env : TeardownEnv) (mgr : ChrootManager) : TeardownResult :=
  ⟨⟨mgr.targetDir, []⟩, teardownLoop env mgr.mounted.reverse, none⟩

/-! ### Installation step pipeline (src/unnamed/part_002) -/

/-- The `Step.String()` name table (src/unnamed/part_002 lines 49-71). -/
def stepNames : List String :=
  ["Partitioning disk", "Setting up encryption", "Mounting partitions",
   "Installing stage3", "Setting up chroot", "Configuring Portage",
   "Syncing Portage tree", "Adding overlays", "Installing base packages",
   "Installing kernel", "Configuring graphics", "Installing desktop",
   "Creating users", "Installing bootloader", "Finalizing installation"]

/-- Embeds `Step.String()`: the table entry, or `"Unknown step"` out of range. -/
def stepString (s : Nat) : String := stepNames.getD s "Unknown step"

/-- Embeds the loop of `Install` (src/unnamed/part_002 lines 136-145) over a
list of step indices. Each step function is modelled by the outcome oracle
`res` (`none` means success). The result is the list of steps that were
invoked, in order, together with the returned error: on the first failing
step the error is wrapped with the step's human-readable name and the loop
stops. -/
def runSteps (res : Nat → Option String) : List Nat → List Nat × Option String
  | [] => ([], none)
  | s :: rest =>
    match res s with
    | some e => ([s], some ("step " ++ stepString s ++ " failed: " ++ e))
    | none =>
      let p := runSteps res rest
      (s :: p.1, p.2)

/-- Embeds `Install` (src/unnamed/part_002 lines 117-148): run the fixed
sequence of fifteen steps in order. -/
def Install (res : Nat → Option String) : List Nat × Option String :=
  runSteps res (List.range 15)

/-! ### Lemmas on decimal rendering and parsing -/

theorem digitChar_isDigit (n : Nat) (h : n < 10) : (digitChar n).isDigit = true := by
  interval_cases n <;> decide

theorem digitChar_toNat (n : Nat) (h : n < 10) : (digitChar n).toNat - 48 = n := by
  interval_cases n <;> decide

theorem natReprCore_all_digits :
    ∀ fuel n acc, (∀ c ∈ acc, c.isDigit = true) →
      ∀ c ∈ natReprCore fuel n acc, c.isDigit = true := by
  intro fuel
  induction fuel with
  | zero => intro n acc hacc c hc; exact hacc c hc
  | succ fuel ih =>
    intro n acc hacc c hc
    rw [natReprCore] at hc
    by_cases h : n < 10
    · rw [if_pos h] at hc
      rcases List.mem_cons.mp hc with h' | h'
      · exact h' ▸ digitChar_isDigit n h
      · exact hacc c h'
    · rw [if_neg h] at hc
      refine ih (n / 10) (digitChar (n % 10) :: acc) ?_ c hc
      intro d hd
      rcases List.mem_cons.mp hd with h' | h'
      · exact h' ▸ digitChar_isDigit _ (Nat.mod_lt _ (by omega))
      · exact hacc d h'

theorem natReprCore_length :
    ∀ fuel n acc, n < fuel → acc.length < (natReprCore fuel n acc).length := by
  intro fuel
  induction fuel with
  | zero => intro n acc h; omega
  | succ fuel ih =>
    intro n acc h
    rw [natReprCore]
    by_cases h10 : n < 10
    · rw [if_pos h10]; simp
    · rw [if_neg h10]
      have hlt : n / 10 < fuel := by
        have : n / 10 < n := Nat.div_lt_self (by omega) (by omega)
        omega
      have := ih (n / 10) (digitChar (n % 10) :: acc) hlt
      simp only [List.length_cons] at this
      omega

theorem parseDigitsAcc_natReprCore :
    ∀ fuel n acc, n < fuel →
      parseDigitsAcc 0 (natReprCore fuel n acc) = parseDigitsAcc n acc := by
  intro fuel
  induction fuel with
  | zero => intro n acc h; omega
  | succ fuel ih =>
    intro n acc h
    rw [natReprCore]
    by_cases h10 : n < 10
    · rw [if_pos h10]
      show parseDigitsAcc (0 * 10 + ((digitChar n).toNat - 48)) acc = parseDigitsAcc n acc
      rw [digitChar_toNat n h10]
      norm_num
    · rw [if_neg h10]
      have hlt : n / 10 < fuel := by
        have : n / 10 < n := Nat.div_lt_self (by omega) (by omega)
        omega
      rw [ih (n / 10) (digitChar (n % 10) :: acc) hlt]
      show parseDigitsAcc (n / 10 * 10 + ((digitChar (n % 10)).toNat - 48)) acc
        = parseDigitsAcc n acc
      rw [digitChar_toNat _ (Nat.mod_lt _ (by omega))]
      congr 1
      omega

theorem takeWhile_digits_append (l r : List Char) (hl : ∀ c ∈ l, c.isDigit = true) :
    (l ++ r).takeWhile Char.isDigit = l ++ r.takeWhile Char.isDigit := by
  induction l with
  | nil => simp
  | cons c cs ih =>
    have hc : c.isDigit = true := hl c (List.mem_cons_self _ _)
    simp only [List.cons_append, List.takeWhile_cons, hc, if_true]
    rw [ih (fun d hd => hl d (List.mem_cons_of_mem _ hd))]

theorem data_append (a b : String) : (a ++ b).data = a.data ++ b.data := rfl

/-- Round trip: `parseStartMiB` recovers the number from a planner-built
string `natRepr n ++ "MiB"`. -/
theorem parseStartMiB_natRepr (n : Nat) : parseStartMiB (natRepr n ++ "MiB") = n := by
  have hall : ∀ c ∈ natReprCore (n + 1) n [], c.isDigit = true :=
    natReprCore_all_digits _ _ _ (by intro c hc; cases hc)
  have hlen : 0 < (natReprCore (n + 1) n []).length :=
    natReprCore_length (n + 1) n [] (Nat.lt_succ_self n)
  obtain ⟨c, cs, hL⟩ : ∃ c cs, natReprCore (n + 1) n [] = c :: cs := by
    cases h : natReprCore (n + 1) n [] with
    | nil => rw [h] at hlen; cases hlen
    | cons c cs => exact ⟨c, cs, rfl⟩
  have hdata : (natRepr n ++ "MiB").data = natReprCore (n + 1) n [] ++ ('M' :: 'i' :: 'B' :: []) := rfl
  have hc : c.isDigit = true := hall c (hL ▸ List.mem_cons_self _ _)
  have hcs : ∀ d ∈ cs, d.isDigit = true := fun d hd => hall d (hL ▸ List.mem_cons_of_mem _ hd)
  rw [parseStartMiB, hdata, hL]
  show (match firstDigitRun (c :: (cs ++ ('M' :: 'i' :: 'B' :: []))) with
        | [] => 0
        | l => parseDigitsAcc 0 l) = n
  rw [firstDigitRun, if_pos hc, takeWhile_digits_append cs _ hcs]
  have hMiB : List.takeWhile Char.isDigit ('M' :: 'i' :: 'B' :: []) = [] := by decide
  rw [hMiB, List.append_nil]
  show parseDigitsAcc 0 (c :: cs) = n
  rw [← hL]
  exact parseDigitsAcc_natReprCore (n + 1) n [] (Nat.lt_succ_self n)

theorem parseStartMiB_1MiB : parseStartMiB "1MiB" = 1 := by decide

theorem parseStartMiB_3MiB : parseStartMiB "3MiB" = 3 := by decide

theorem parseStartMiB_515MiB : parseStartMiB "515MiB" = 515 := by decide

theorem parseStartMiB_1025MiB : parseStartMiB "1025MiB" = 1025 := by decide

theorem clampSwapMB_bounds (memMB : Nat) :
    1024 ≤ clampSwapMB memMB ∧ clampSwapMB memMB ≤ 8192 := by
  simp only [clampSwapMB]
  split_ifs <;> omega

theorem clampSwapMB_eq (memMB : Nat) : clampSwapMB memMB = max 1024 (min memMB 8192) := by
  simp only [clampSwapMB]
  split_ifs <;> omega

/-! ### Claims about the partition layout planner -/

/-- Claim C1: for every disk, firmware flag and encryption flag, the layout
returned by `CreateAutoLayout` has strictly increasing start offsets, each
partition starting exactly where the previous one ends, exactly one `"/"`
mount point, partition numbers sequential from 1, and an ESP-flagged
`"/boot"` partition exactly when `isUEFI` is true. -/
theorem CreateAutoLayout_invariants (d : Int) (m : Nat) (u e : Bool) :
    List.Pairwise (fun p q => parseStartMiB p.Start < parseStartMiB q.Start)
      (CreateAutoLayout d m u e).Partitions ∧
    List.Chain' (fun p q => q.Start = p.End) (CreateAutoLayout d m u e).Partitions ∧
    ((CreateAutoLayout d m u e).Partitions.countP (fun p => p.MountPoint == "/")) = 1 ∧
    (∀ i, (h : i < (CreateAutoLayout d m u e).Partitions.length) →
      ((CreateAutoLayout d m u e).Partitions.get ⟨i, h⟩).Number = i + 1) ∧
    ((∃ p ∈ (CreateAutoLayout d m u e).Partitions, p.MountPoint = "/boot" ∧ "esp" ∈ p.Flags)
      ↔ u = true) := by
  obtain ⟨hlo, hhi⟩ := clampSwapMB_bounds m
  cases u <;>
    simp only [CreateAutoLayout, espPartition, biosStubPartition, mbrBootPartition,
      if_true, if_false, Bool.false_eq_true, List.cons_append, List.nil_append] <;>
    refine ⟨?_, ?_, ?_, ?_, ?_⟩
  · simp [parseStartMiB_1MiB, parseStartMiB_3MiB, parseStartMiB_515MiB,
      parseStartMiB_natRepr]
    omega
  · simp [List.chain'_cons]
  · simp [List.countP_cons, List.countP_nil, show ("" = "/") = False from by simp]
  · intro i h
    simp only [List.length_cons, List.length_nil] at h
    interval_cases i <;> rfl
  · simp
  · simp [parseStartMiB_1MiB, parseStartMiB_1025MiB, parseStartMiB_natRepr]
    omega
  · simp [List.chain'_cons]
  · simp [List.countP_cons, List.countP_nil, show ("" = "/") = False from by simp]
  · intro i h
    simp only [List.length_cons, List.length_nil] at h
    interval_cases i <;> rfl
  · simp

/-- Witness for C1: in the UEFI layout of a 2 GiB-RAM machine the third
partition carries number 3. -/
theorem CreateAutoLayout_invariants_witness :
    ((CreateAutoLayout 500107862016 2048 true false).Partitions.get ⟨2, by decide⟩).Number = 3 :=
  (CreateAutoLayout_invariants 500107862016 2048 true false).2.2.2.1 2 (by decide)

/-- Claim C4: the boot geometry of both layouts. Under UEFI the first
partition starts at 1 MiB, ends at 1025 MiB with size 1024 MiB, is FAT32,
mounts at `"/boot"` and carries flags boot and esp. On legacy BIOS the
layout is exactly boot stub (2 MiB, no filesystem, `bios_grub`), then the
512 MiB ext4 `"/boot"` partition with flag boot, then swap, then the ext4
root mounted at `"/"`, ending at `"100%"`, with `Encrypt = useEncryption`. -/
theorem CreateAutoLayout_boot_layout (d : Int) (m : Nat) (e : Bool) :
    (∃ p, ((CreateAutoLayout d m true e).Partitions)[0]? = some p ∧
       p.Start = "1MiB" ∧ p.End = "1025MiB" ∧ p.Size = "1024MiB" ∧
       p.Filesystem = Config.FSFat32 ∧ p.MountPoint = "/boot" ∧ p.Flags = ["boot", "esp"]) ∧
    (∃ p0 p1 p2 p3, (CreateAutoLayout d m false e).Partitions = [p0, p1, p2, p3] ∧
       p0.Size = "2MiB" ∧ p0.Filesystem = Config.FSNone ∧ p0.MountPoint = "" ∧
       p0.Flags = ["bios_grub"] ∧
       p1.Size = "512MiB" ∧ p1.Filesystem = Config.FSExt4 ∧ p1.MountPoint = "/boot" ∧
       p1.Flags = ["boot"] ∧
       p2.Filesystem = Config.FSSwap ∧ p2.MountPoint = "" ∧
       p3.Filesystem = Config.FSExt4 ∧ p3.MountPoint = "/" ∧ p3.End = "100%" ∧
       p3.Encrypt = e) := by
  constructor
  · exact ⟨espPartition, rfl, rfl, rfl, rfl, rfl, rfl, rfl⟩
  · simp only [CreateAutoLayout, if_true, if_false, Bool.false_eq_true,
      List.cons_append, List.nil_append]
    exact ⟨_, _, _, _, rfl, rfl, rfl, rfl, rfl, rfl, rfl, rfl, rfl, rfl, rfl, rfl, rfl,
      rfl, rfl⟩

/-- Claim C5: for every reported RAM value the swap partition has size
`clamp(RAM, 1024, 8192)` MiB and no mount point; in particular RAM 512 gives
1024 MiB, RAM 4096 gives 4096 MiB and RAM 16384 gives 8192 MiB. -/
theorem CreateAutoLayout_swap_size (d : Int) (m : Nat) (u e : Bool) :
    (((CreateAutoLayout d m u e).Partitions.filter
        (fun p => p.Filesystem == Config.FSSwap)).map (fun p => (p.Size, p.MountPoint)))
      = [(natRepr (max 1024 (min m 8192)) ++ "MiB", "")] ∧
    (((CreateAutoLayout d 512 u e).Partitions.filter
        (fun p => p.Filesystem == Config.FSSwap)).map (fun p => (p.Size, p.MountPoint)))
      = [("1024MiB", "")] ∧
    (((CreateAutoLayout d 4096 u e).Partitions.filter
        (fun p => p.Filesystem == Config.FSSwap)).map (fun p => (p.Size, p.MountPoint)))
      = [("4096MiB", "")] ∧
    (((CreateAutoLayout d 16384 u e).Partitions.filter
        (fun p => p.Filesystem == Config.FSSwap)).map (fun p => (p.Size, p.MountPoint)))
      = [("8192MiB", "")] := by
  have hgen : ∀ (m : Nat), (((CreateAutoLayout d m u e).Partitions.filter
      (fun p => p.Filesystem == Config.FSSwap)).map (fun p => (p.Size, p.MountPoint)))
      = [(natRepr (max 1024 (min m 8192)) ++ "MiB", "")] := by
    intro m
    rw [← clampSwapMB_eq]
    cases u <;>
      simp [CreateAutoLayout, espPartition, biosStubPartition, mbrBootPartition,
        Config.FSFat32, Config.FSNone, Config.FSExt4, Config.FSSwap]
  exact ⟨hgen m, (hgen 512).trans (by decide), (hgen 4096).trans (by decide),
    (hgen 16384).trans (by decide)⟩

/-- Claim C9: the planner picks GPT exactly for UEFI and MBR exactly for
legacy BIOS, and the partition-table label mapping sends GPT to `"gpt"`,
MBR to `"msdos"` and rejects every other scheme. -/
theorem CreateAutoLayout_scheme (d : Int) (m : Nat) (u e : Bool) :
    ((CreateAutoLayout d m u e).Scheme = Config.PartSchemeGPT ↔ u = true) ∧
    ((CreateAutoLayout d m u e).Scheme = Config.PartSchemeMBR ↔ u = false) ∧
    CreatePartitionTableLabel Config.PartSchemeGPT = Except.ok "gpt" ∧
    CreatePartitionTableLabel Config.PartSchemeMBR = Except.ok "msdos" ∧
    (∀ s, s ≠ Config.PartSchemeGPT → s ≠ Config.PartSchemeMBR →
      CreatePartitionTableLabel s = Except.error ("unsupported partition scheme: " ++ s)) := by
  refine ⟨?_, ?_, ?_, ?_, ?_⟩
  · cases u <;> simp [CreateAutoLayout, Config.PartSchemeGPT, Config.PartSchemeMBR]
  · cases u <;> simp [CreateAutoLayout, Config.PartSchemeGPT, Config.PartSchemeMBR]
  · simp [CreatePartitionTableLabel]
  · simp [CreatePartitionTableLabel, Config.PartSchemeGPT, Config.PartSchemeMBR]
  · intro s h1 h2
    rw [CreatePartitionTableLabel, if_neg h1, if_neg h2]

/-- Witness for C9: an unsupported scheme string is rejected. -/
theorem CreateAutoLayout_scheme_witness :
    CreatePartitionTableLabel "bsd"
      = Except.error ("unsupported partition scheme: " ++ "bsd") :=
  (CreateAutoLayout_scheme 0 0 true true).2.2.2.2 "bsd" (by decide) (by decide)

/-! ### Lemmas on substring search and the device naming rule -/

theorem strStarts_iff : ∀ sub s : List Char, strStarts sub s = true ↔ ∃ r, s = sub ++ r := by
  intro sub
  induction sub with
  | nil => intro s; simp [strStarts]
  | cons c cs ih =>
    intro s
    cases s with
    | nil =>
      simp only [strStarts, List.cons_append]
      constructor
      · intro h; cases h
      · rintro ⟨r, h⟩; cases h
    | cons d ds =>
      simp only [strStarts, Bool.and_eq_true, beq_iff_eq, ih, List.cons_append,
        List.cons_eq_cons]
      constructor
      · rintro ⟨rfl, r, rfl⟩; exact ⟨r, rfl, rfl⟩
      · rintro ⟨r, rfl, rfl⟩; exact ⟨rfl, r, rfl⟩

theorem strFind_iff : ∀ (sub s : List Char), strFind sub s = true ↔ SubstrOf sub s := by
  intro sub s
  induction s with
  | nil =>
    rw [strFind, strStarts_iff]
    constructor
    · rintro ⟨r, h⟩
      exact ⟨[], r, by simpa using h⟩
    · rintro ⟨l, r, h⟩
      rw [List.append_assoc] at h
      obtain ⟨hl, hsr⟩ := List.append_eq_nil.mp h.symm
      obtain ⟨hs, hr⟩ := List.append_eq_nil.mp hsr
      exact ⟨r, by simp [hs, hr]⟩
  | cons c rest ih =>
    rw [strFind, Bool.or_eq_true, strStarts_iff, ih]
    constructor
    · rintro (⟨r, h⟩ | ⟨l, r, h⟩)
      · exact ⟨[], r, by simpa using h⟩
      · exact ⟨c :: l, r, by simp [h]⟩
    · rintro ⟨l, r, h⟩
      cases l with
      | nil => exact Or.inl ⟨r, by simpa using h⟩
      | cons x xs =>
        right
        simp only [List.cons_append, List.cons_eq_cons] at h
        exact ⟨xs, r, h.2⟩

theorem containsAnyOne_iff (s sub : List Char) :
    Installer.containsAnyOne s sub = true ↔ SubstrOf sub s := by
  rw [Installer.containsAnyOne]
  constructor
  · intro h
    split_ifs at h with hlen
    · rw [List.any_eq_true] at h
      obtain ⟨i, hi, hii⟩ := h
      rw [beq_iff_eq] at hii
      refine ⟨s.take i, (s.drop i).drop sub.length, ?_⟩
      conv_lhs => rw [← List.take_append_drop i s, ← List.take_append_drop sub.length (s.drop i)]
      rw [hii, List.append_assoc]
  · rintro ⟨l, r, rfl⟩
    have hlen : sub.length ≤ (l ++ sub ++ r).length := by
      simp only [List.length_append]
      omega
    rw [if_pos hlen, List.any_eq_true]
    refine ⟨l.length, ?_, ?_⟩
    · rw [List.mem_range]
      simp only [List.length_append]
      omega
    · rw [beq_iff_eq, List.append_assoc, List.drop_left, List.take_left]

theorem stringsContains_iff (s sub : String) :
    stringsContains s sub = true ↔ SubstrOf sub.data s.data :=
  strFind_iff sub.data s.data

/-- Claim C8: the partition package's and the installer package's
device-naming helpers agree on every input, and both implement the rule:
append `"p" ++ N` when the base path contains `"nvme"` or `"mmcblk"` and
just `N` otherwise; with the two concrete examples of the spec. -/
theorem getPartitionDevice_agree (disk : String) (n : Nat) :
    Partition.getPartitionDevice disk n = Installer.getPartitionDevice disk n ∧
    (SubstrOf "nvme".data disk.data ∨ SubstrOf "mmcblk".data disk.data →
      Partition.getPartitionDevice disk n = disk ++ "p" ++ natRepr n) ∧
    (¬(SubstrOf "nvme".data disk.data ∨ SubstrOf "mmcblk".data disk.data) →
      Partition.getPartitionDevice disk n = disk ++ natRepr n) ∧
    Partition.getPartitionDevice "/dev/nvme0n1" 1 = "/dev/nvme0n1p1" ∧
    Partition.getPartitionDevice "/dev/sda" 2 = "/dev/sda2" := by
  have hcond : (stringsContains disk "nvme" || stringsContains disk "mmcblk") = true
      ↔ (SubstrOf "nvme".data disk.data ∨ SubstrOf "mmcblk".data disk.data) := by
    rw [Bool.or_eq_true, stringsContains_iff, stringsContains_iff]
  have hcond2 : Installer.containsAny disk.data ["nvme".data, "mmcblk".data] = true
      ↔ (SubstrOf "nvme".data disk.data ∨ SubstrOf "mmcblk".data disk.data) := by
    simp [Installer.containsAny, containsAnyOne_iff]
  refine ⟨?_, ?_, ?_, by decide, by decide⟩
  · rw [Partition.getPartitionDevice, Installer.getPartitionDevice]
    by_cases h : SubstrOf "nvme".data disk.data ∨ SubstrOf "mmcblk".data disk.data
    · rw [if_pos (hcond.mpr h), if_pos (hcond2.mpr h)]
    · rw [if_neg (fun hb => h (hcond.mp hb)), if_neg (fun hb => h (hcond2.mp hb))]
  · intro h
    rw [Partition.getPartitionDevice, if_pos (hcond.mpr h)]
  · intro h
    rw [Partition.getPartitionDevice, if_neg (fun hb => h (hcond.mp hb))]

/-- Witness for C8: an mmcblk path gets the `p`-separated partition name. -/
theorem getPartitionDevice_agree_witness :
    Partition.getPartitionDevice "/dev/mmcblk0" 3 = "/dev/mmcblk0" ++ "p" ++ natRepr 3 :=
  (getPartitionDevice_agree "/dev/mmcblk0" 3).2.1
    (Or.inr ⟨"/dev/".data, "0".data, by decide⟩)

/-! ### Lemmas on the mount sort -/

theorem innerPass_snd_length :
    ∀ (xs : List MountInfoRec) (x), ((innerPass x xs).2).length = xs.length := by
  intro xs
  induction xs with
  | nil => intro x; rfl
  | cons y ys ih =>
    intro x
    rw [innerPass]
    split_ifs <;> simp [ih]

theorem innerPass_fst_le :
    ∀ (xs : List MountInfoRec) (x),
      (innerPass x xs).1.mountPoint.length ≤ x.mountPoint.length ∧
      ∀ z ∈ (innerPass x xs).2, (innerPass x xs).1.mountPoint.length ≤ z.mountPoint.length := by
  intro xs
  induction xs with
  | nil => intro x; exact ⟨le_refl _, by intro z hz; cases hz⟩
  | cons y ys ih =>
    intro x
    rw [innerPass]
    split_ifs with h
    · obtain ⟨h1, h2⟩ := ih y
      refine ⟨by simpa using h1.trans (le_of_lt h), ?_⟩
      intro z hz
      simp only [List.mem_cons] at hz
      rcases hz with rfl | hz
      · simpa using h1.trans (le_of_lt h)
      · simpa using h2 z hz
    · obtain ⟨h1, h2⟩ := ih x
      refine ⟨by simpa using h1, ?_⟩
      intro z hz
      simp only [List.mem_cons] at hz
      rcases hz with rfl | hz
      · simp only []
        omega
      · simpa using h2 z hz

theorem innerPass_fst_mem :
    ∀ (xs : List MountInfoRec) (x), (innerPass x xs).1 = x ∨ (innerPass x xs).1 ∈ xs := by
  intro xs
  induction xs with
  | nil => intro x; exact Or.inl rfl
  | cons y ys ih =>
    intro x
    rw [innerPass]
    split_ifs with h
    · rcases ih y with h' | h'
      · exact Or.inr (by simp [h'])
      · exact Or.inr (by simp; right; simpa using h')
    · rcases ih x with h' | h'
      · exact Or.inl (by simpa using h')
      · exact Or.inr (by simp; right; simpa using h')

theorem innerPass_snd_mem :
    ∀ (xs : List MountInfoRec) (x) (z), z ∈ (innerPass x xs).2 → z = x ∨ z ∈ xs := by
  intro xs
  induction xs with
  | nil => intro x z hz; cases hz
  | cons y ys ih =>
    intro x z hz
    rw [innerPass] at hz
    split_ifs at hz with h
    · simp only [List.mem_cons] at hz
      rcases hz with rfl | hz
      · exact Or.inl rfl
      · rcases ih y z hz with rfl | h'
        · exact Or.inr (by simp)
        · exact Or.inr (by simp [h'])
    · simp only [List.mem_cons] at hz
      rcases hz with rfl | hz
      · exact Or.inr (by simp)
      · rcases ih x z hz with rfl | h'
        · exact Or.inl rfl
        · exact Or.inr (by simp [h'])

theorem sortMountsCore_subset :
    ∀ (fuel : Nat) (l : List MountInfoRec) (z), z ∈ sortMountsCore fuel l → z ∈ l := by
  intro fuel
  induction fuel with
  | zero => intro l z hz; exact hz
  | succ fuel ih =>
    intro l z hz
    cases l with
    | nil => cases hz
    | cons x xs =>
      rw [sortMountsCore] at hz
      simp only [List.mem_cons] at hz
      rcases hz with rfl | hz
      · rcases innerPass_fst_mem xs x with h' | h'
        · rw [h']; exact List.mem_cons_self _ _
        · exact List.mem_cons_of_mem _ h'
      · rcases innerPass_snd_mem xs x z (ih _ z hz) with rfl | h'
        · exact List.mem_cons_self _ _
        · exact List.mem_cons_of_mem _ h'

theorem sortMountsCore_pairwise :
    ∀ (fuel : Nat) (l : List MountInfoRec), l.length ≤ fuel →
      List.Pairwise (fun a b => a.mountPoint.length ≤ b.mountPoint.length)
        (sortMountsCore fuel l) := by
  intro fuel
  induction fuel with
  | zero =>
    intro l hl
    have hnil : l = [] := List.length_eq_zero.mp (by omega)
    subst hnil
    exact List.Pairwise.nil
  | succ fuel ih =>
    intro l hl
    cases l with
    | nil => exact List.Pairwise.nil
    | cons x xs =>
      rw [sortMountsCore]
      refine List.pairwise_cons.mpr ⟨?_, ?_⟩
      · intro z hz
        exact (innerPass_fst_le xs x).2 z (sortMountsCore_subset _ _ z hz)
      · refine ih _ ?_
        rw [innerPass_snd_length]
        simpa using Nat.le_of_succ_le_succ hl

/-- Counterexample for claim C6: on the unsorted mount points `/home`, `/`,
`/boot` the recorded mount call order is NOT `/`, `/boot`, `/home` --- the
inner loop only swaps on strictly shorter mount paths, so the equal-length
entries `/home` and `/boot` end up with `/home` first. -/
theorem MountPartitions_order_counterexample :
    ¬ (mountOrder "/dev/sda"
        ⟨Config.PartSchemeGPT,
         [{ Number := 1, Filesystem := Config.FSExt4, MountPoint := "/home" },
          { Number := 2, Filesystem := Config.FSExt4, MountPoint := "/" },
          { Number := 3, Filesystem := Config.FSExt4, MountPoint := "/boot" }]⟩).map
      (fun mi => mi.mountPoint) = ["/", "/boot", "/home"] := by
  decide

/-- Claim C6 (amended): `MountPartitions` mounts the partitions with a
non-empty mount point in ascending order of mount-path string length, so
`/` is always mounted before `/boot` and `/home`; on the unsorted mount
points `/home`, `/`, `/boot` the recorded order is `/`, `/home`, `/boot`. -/
theorem MountPartitions_order (device : String) (layout : PartitionLayout) :
    List.Pairwise (fun a b => a.mountPoint.length ≤ b.mountPoint.length)
      (mountOrder device layout) ∧
    List.Pairwise
      (fun a b => ¬(b.mountPoint = "/" ∧ (a.mountPoint = "/boot" ∨ a.mountPoint = "/home")))
      (mountOrder device layout) ∧
    (mountOrder "/dev/sda"
        ⟨Config.PartSchemeGPT,
         [{ Number := 1, Filesystem := Config.FSExt4, MountPoint := "/home" },
          { Number := 2, Filesystem := Config.FSExt4, MountPoint := "/" },
          { Number := 3, Filesystem := Config.FSExt4, MountPoint := "/boot" }]⟩).map
      (fun mi => mi.mountPoint) = ["/", "/home", "/boot"] := by
  refine ⟨sortMountsCore_pairwise _ _ (le_refl _), ?_, by decide⟩
  refine List.Pairwise.imp ?_ (sortMountsCore_pairwise _ _ (le_refl _))
  intro a b hab
  rintro ⟨hb, ha | ha⟩ <;> rw [hb, ha] at hab <;> simp [String.length] at hab

/-! ### Lemmas on chroot Setup and Teardown -/

theorem setupLoop_world_mono :
    ∀ (L : List MountPoint) (env : SetupEnv) (w tr cl : List String) (x : String),
      x ∈ w → x ∈ (setupLoop env L w tr cl).world := by
  intro L
  induction L with
  | nil => intro env w tr cl x hx; exact hx
  | cons mp rest ih =>
    intro env w tr cl x hx
    rw [setupLoop]
    split_ifs with h1 h2 h3 h4 h5
    · exact ih env w tr cl x hx
    · exact hx
    · exact ih env w tr cl x hx
    · exact ih env _ _ _ x (List.mem_cons_of_mem _ hx)
    · exact ih env w tr _ x hx
    · exact hx

theorem setupLoop_mounted_skip :
    ∀ (L : List MountPoint) (env : SetupEnv) (w tr cl : List String) (x : String),
      x ∈ w →
      ((x ∈ (setupLoop env L w tr cl).calls ↔ x ∈ cl) ∧
       (x ∈ (setupLoop env L w tr cl).tracked ↔ x ∈ tr)) := by
  intro L
  induction L with
  | nil => intro env w tr cl x hx; exact ⟨Iff.rfl, Iff.rfl⟩
  | cons mp rest ih =>
    intro env w tr cl x hx
    rw [setupLoop]
    split_ifs with h1 h2 h3 h4 h5
    · exact ih env w tr cl x hx
    · exact ⟨Iff.rfl, Iff.rfl⟩
    · exact ih env w tr cl x hx
    · have hne : x ≠ mp.Target := by
        intro h
        subst h
        simp at h3
        exact h3 hx
      obtain ⟨hc, ht⟩ := ih env (mp.Target :: w) (tr ++ [mp.Target]) (cl ++ [mp.Target]) x
        (List.mem_cons_of_mem _ hx)
      refine ⟨hc.trans ?_, ht.trans ?_⟩ <;> simp [hne]
    · have hne : x ≠ mp.Target := by
        intro h
        subst h
        simp at h3
        exact h3 hx
      obtain ⟨hc, ht⟩ := ih env w tr (cl ++ [mp.Target]) x hx
      refine ⟨hc.trans ?_, ht⟩
      simp [hne]
    · have hne : x ≠ mp.Target := by
        intro h
        subst h
        simp at h3
        exact h3 hx
      constructor
      · simp [hne]
      · exact Iff.rfl

theorem setupLoop_post :
    ∀ (L : List MountPoint) (env : SetupEnv) (w tr cl : List String),
      (setupLoop env L w tr cl).err = none →
      ∀ mp ∈ L, ((mp.FSType == "efivarfs" && !env.isUEFI) = true) ∨
        (env.createDirOk mp.Target = true ∧
          (mp.Target ∈ (setupLoop env L w tr cl).world ∨
            ((mp.FSType == "efivarfs") = true ∧ env.mountOk mp.Target = false))) := by
  intro L
  induction L with
  | nil => intro env w tr cl herr mp hmp; cases hmp
  | cons mp0 rest ih =>
    intro env w tr cl herr mp hmp
    rw [setupLoop] at herr ⊢
    by_cases hc1 : (mp0.FSType == "efivarfs" && !env.isUEFI) = true
    · rw [if_pos hc1] at herr ⊢
      rcases List.mem_cons.mp hmp with rfl | hmp'
      · exact Or.inl hc1
      · exact ih env w tr cl herr mp hmp'
    · rw [if_neg hc1] at herr ⊢
      by_cases hc2 : (!env.createDirOk mp0.Target) = true
      · rw [if_pos hc2] at herr
        simp at herr
      · rw [if_neg hc2] at herr ⊢
        by_cases hc3 : (w.contains mp0.Target) = true
        · rw [if_pos hc3] at herr ⊢
          rcases List.mem_cons.mp hmp with rfl | hmp'
          · refine Or.inr ⟨by simpa using hc2, Or.inl ?_⟩
            exact setupLoop_world_mono rest env w tr cl mp.Target (by simpa using hc3)
          · exact ih env w tr cl herr mp hmp'
        · rw [if_neg hc3] at herr ⊢
          by_cases hc4 : (env.mountOk mp0.Target) = true
          · rw [if_pos hc4] at herr ⊢
            rcases List.mem_cons.mp hmp with rfl | hmp'
            · refine Or.inr ⟨by simpa using hc2, Or.inl ?_⟩
              exact setupLoop_world_mono rest env _ _ _ mp.Target (List.mem_cons_self _ _)
            · exact ih env _ _ _ herr mp hmp'
          · rw [if_neg hc4] at herr ⊢
            by_cases hc5 : (mp0.FSType == "efivarfs") = true
            · rw [if_pos hc5] at herr ⊢
              rcases List.mem_cons.mp hmp with rfl | hmp'
              · exact Or.inr ⟨by simpa using hc2, Or.inr ⟨hc5, by simpa using hc4⟩⟩
              · exact ih env w tr _ herr mp hmp'
            · rw [if_neg hc5] at herr
              simp at herr

theorem setupLoop_noop :
    ∀ (L : List MountPoint) (env : SetupEnv) (w tr cl : List String),
      (∀ mp ∈ L, ((mp.FSType == "efivarfs" && !env.isUEFI) = true) ∨
        (env.createDirOk mp.Target = true ∧ mp.Target ∈ w)) →
      setupLoop env L w tr cl = ⟨w, tr, cl, none⟩ := by
  intro L
  induction L with
  | nil => intro env w tr cl hall; rfl
  | cons mp0 rest ih =>
    intro env w tr cl hall
    have hrest : ∀ mp ∈ rest, ((mp.FSType == "efivarfs" && !env.isUEFI) = true) ∨
        (env.createDirOk mp.Target = true ∧ mp.Target ∈ w) :=
      fun mp hmp => hall mp (List.mem_cons_of_mem _ hmp)
    have h0 := hall mp0 (List.mem_cons_self _ _)
    rw [setupLoop]
    by_cases hc1 : (mp0.FSType == "efivarfs" && !env.isUEFI) = true
    · rw [if_pos hc1]
      exact ih env w tr cl hrest
    · rw [if_neg hc1]
      have hcd : env.createDirOk mp0.Target = true := by
        rcases h0 with h0 | ⟨hc, _⟩
        · exact absurd h0 hc1
        · exact hc
      have hw : mp0.Target ∈ w := by
        rcases h0 with h0 | ⟨_, hw⟩
        · exact absurd h0 hc1
        · exact hw
      rw [if_neg (by simp [hcd]), if_pos (by simpa using hw)]
      exact ih env w tr cl hrest

/-- Claim C7: the idempotence guard of chroot `Setup`. Every target that is
already mounted is skipped: no mount call is issued for it and it is not
appended to the tracked list. Consequently, when a `Setup` run completes
without error (and `efivarfs`, whose mount failure is tolerated, succeeded
if attempted), running `Setup` again issues no mount call at all and leaves
the tracked-mounts list unchanged. -/
theorem Setup_idempotent (env : SetupEnv) (td : String) (world tracked : List String) :
    (∀ x, x ∈ world →
        x ∉ (Setup env td world tracked).calls ∧
        ((x ∈ (Setup env td world tracked).tracked) ↔ x ∈ tracked)) ∧
    ((Setup env td world tracked).err = none →
      (∀ mp ∈ DefaultMounts td, mp.FSType = "efivarfs" → env.isUEFI = true →
        env.mountOk mp.Target = true) →
      Setup env td (Setup env td world tracked).world (Setup env td world tracked).tracked
        = ⟨(Setup env td world tracked).world, (Setup env td world tracked).tracked, [], none⟩) := by
  constructor
  · intro x hx
    obtain ⟨hc, ht⟩ := setupLoop_mounted_skip (DefaultMounts td) env world tracked [] x hx
    exact ⟨fun h => by simpa using hc.mp h, ht⟩
  · intro herr hEfi
    refine setupLoop_noop (DefaultMounts td) env _ _ [] ?_
    intro mp hmp
    rcases setupLoop_post (DefaultMounts td) env world tracked [] herr mp hmp with h | ⟨hc, hor⟩
    · exact Or.inl h
    · rcases hor with hw | ⟨hfs, hmf⟩
      · exact Or.inr ⟨hc, hw⟩
      · by_cases hu : env.isUEFI
        · have := hEfi mp hmp (by simpa using hfs) (by simpa using hu)
          rw [this] at hmf
          cases hmf
        · refine Or.inl ?_
          rw [hfs]
          simp [hu]

/-- Witness for C7: with every operation succeeding on a UEFI host, a second
`Setup` after a completed first one changes nothing, tracks nothing new and
issues no mount call. -/
theorem Setup_idempotent_witness :
    Setup ⟨true, fun _ => true, fun _ => true⟩ "/mnt/gentoo"
        (Setup ⟨true, fun _ => true, fun _ => true⟩ "/mnt/gentoo" [] []).world
        (Setup ⟨true, fun _ => true, fun _ => true⟩ "/mnt/gentoo" [] []).tracked
      = ⟨(Setup ⟨true, fun _ => true, fun _ => true⟩ "/mnt/gentoo" [] []).world,
         (Setup ⟨true, fun _ => true, fun _ => true⟩ "/mnt/gentoo" [] []).tracked, [], none⟩ :=
  (Setup_idempotent ⟨true, fun _ => true, fun _ => true⟩ "/mnt/gentoo" [] []).2 (by decide)
    (fun mp hmp h1 h2 => rfl)

theorem teardownLoop_map_fst (env : TeardownEnv) :
    ∀ l : List String, (teardownLoop env l).map Prod.fst = l.filter env.isMounted := by
  intro l
  induction l with
  | nil => rfl
  | cons mnt rest ih =>
    rw [teardownLoop, List.filter_cons]
    by_cases h : env.isMounted mnt
    · rw [if_pos h, if_pos h, List.map_cons, ih]
    · rw [if_neg h, if_neg h, ih]

/-- Claim C3: `Teardown` attempts the tracked mounts in exactly reverse
order of recording (each entry that is still mounted gets exactly one
attempt, whatever the unmount outcomes are), and afterwards the tracked
list is empty. -/
theorem Teardown_reverse_order (env : TeardownEnv) (mgr : ChrootManager) :
    ((Teardown env mgr).attempts.map Prod.fst = mgr.mounted.reverse.filter env.isMounted) ∧
    ((∀ x ∈ mgr.mounted, env.isMounted x = true) →
      (Teardown env mgr).attempts.map Prod.fst = mgr.mounted.reverse) ∧
    (Teardown env mgr).manager.mounted = [] := by
  refine ⟨teardownLoop_map_fst env _, ?_, rfl⟩
  intro hall
  show List.map Prod.fst (teardownLoop env mgr.mounted.reverse) = mgr.mounted.reverse
  rw [teardownLoop_map_fst env _]
  refine List.filter_eq_self.mpr ?_
  intro x hx
  exact hall x (List.mem_reverse.mp hx)

/-- Witness for C3: with every entry still mounted, the attempts run in
reverse recording order even though the unmount of `"b"` is the only one
that succeeds. -/
theorem Teardown_reverse_order_witness :
    (Teardown ⟨fun _ => true, fun t => t == "b"⟩
        ⟨"/mnt/gentoo", ["a", "b", "c"]⟩).attempts.map Prod.fst = ["c", "b", "a"] :=
  ((Teardown_reverse_order ⟨fun _ => true, fun t => t == "b"⟩
      ⟨"/mnt/gentoo", ["a", "b", "c"]⟩).2.1 (fun x hx => rfl)).trans (by decide)

/-- Claim C10: `Teardown` always returns nil, whatever the tracked list and
the unmount outcomes; a second `Teardown` right after a first iterates over
an empty list and attempts no unmounts. -/
theorem Teardown_never_errors (env env2 : TeardownEnv) (mgr : ChrootManager) :
    (Teardown env mgr).err = none ∧
    (Teardown env2 ((Teardown env mgr).manager)).attempts = [] :=
  ⟨rfl, rfl⟩

/-! ### Lemmas on the step pipeline -/

theorem runSteps_ok_append (res : Nat → Option String) :
    ∀ (L1 L2 : List Nat), (∀ j ∈ L1, res j = none) →
      runSteps res (L1 ++ L2) = (L1 ++ (runSteps res L2).1, (runSteps res L2).2) := by
  intro L1
  induction L1 with
  | nil =>
    intro L2 h
    simp only [List.nil_append]
  | cons s L1 ih =>
    intro L2 h
    have hs : res s = none := h s (List.mem_cons_self _ _)
    rw [List.cons_append, runSteps, hs, ih L2 (fun j hj => h j (List.mem_cons_of_mem _ hj))]
    rfl

/-- Claim C2: `Install` runs the fixed sequence of fifteen steps in order;
when every step before `k` succeeds and step `k` fails with error `e`, it
runs exactly steps `0, 1, ..., k` once each (none after `k`), and returns
the error wrapping `e` with step `k`'s human-readable name. -/
theorem Install_fail_fast (res : Nat → Option String) (k : Nat) (e : String)
    (hk : k < 15) (hpre : ∀ j, j < k → res j = none) (hfail : res k = some e) :
    Install res = (List.range (k + 1), some ("step " ++ stepString k ++ " failed: " ++ e)) := by
  have h15 : 15 - k + k = 15 := by omega
  have hsplit : List.range 15 = List.range k ++ List.range' k (15 - k) := by
    rw [List.range_eq_range', List.range_eq_range']
    calc List.range' 0 15 = List.range' 0 (15 - k + k) := by rw [h15]
      _ = List.range' 0 k ++ List.range' (0 + k) (15 - k) := (List.range'_append_1 0 k (15 - k)).symm
      _ = List.range' 0 k ++ List.range' k (15 - k) := by rw [Nat.zero_add]
  have hcons : List.range' k (15 - k) = k :: List.range' (k + 1) (15 - k - 1) := by
    have hpred : 15 - k = (15 - k - 1) + 1 := by omega
    rw [hpred]
    simp [List.range']
  rw [Install, hsplit, hcons,
    runSteps_ok_append res _ _ (fun j hj => hpre j (List.mem_range.mp hj)),
    runSteps, hfail]
  rw [← List.range_succ]

/-- Witness for C2: with steps 0, 1, 2 succeeding and step 3 (stage3) failing,
exactly steps 0..3 run and the error names the failing step. -/
theorem Install_fail_fast_witness :
    Install (fun j => if j = 3 then some "boom" else none)
      = (List.range 4, some ("step " ++ stepString 3 ++ " failed: " ++ "boom")) :=
  Install_fail_fast _ 3 "boom" (by omega) (fun j hj => if_neg (by omega)) (if_pos rfl)

end YunoOS
